import Mathlib

/-!
Verification development for the hierarchical tensor-product basis
subsystem (`gsHTensorBasis<d,T>`, file `gsHTensorBasis.h`) of the G+Smo
isogeometric analysis library.

The embedding below follows the C++ source.  Function bodies that are
present in the header (`levelOf`, the two `flatTensorIndexOf` overloads,
`_differenceBetweenKnotVectors`, the constructors with their
`GISMO_ASSERT` precondition checks) are translated directly.  Members
whose implementation lives outside the header excerpt
(`update_structure`, `insert_box`/`gsHDomain::insertBox`, `needLevel`,
`createMoreLevels`, `transfer`) are modelled from the specification and
are marked as such in their doc comments.

Conventions:
* `unsigned` values are natural numbers; where 32-bit wrap-around could
  matter it is made explicit (`usub32`).
* Unchecked C++ container accesses (`operator[]` of `std::vector` /
  `gsSortedVector`) are modelled with `List.getD` and a default value.
* A characteristic matrix (`gsSortedVector<unsigned>`) is a `List ℕ`,
  the whole per-level family `m_xmatrix` a `List (List ℕ)`.
-/

namespace GismoHTB

/-- Index computed by `std::upper_bound` on a sorted `std::vector<unsigned>`:
the position of the first entry strictly greater than `x`, or the length
of the vector when every entry is at most `x`.  `gsHTensorBasis::levelOf`
applies this to the sorted offset table `m_xmatrix_offset`. -/
def upperBound (l : List ℕ) (x : ℕ) : ℕ :=
  l.findIdx (fun o => decide (x < o))

/-- Prefix sum of the characteristic-matrix sizes: the number of
hierarchical basis functions taken from levels `k < l`. -/
def sizeUpTo (xm : List (List ℕ)) (l : ℕ) : ℕ :=
  ((xm.take l).map List.length).sum

/-- Modelled from the spec: the offset table `m_xmatrix_offset` as rebuilt
by `update_structure` (whose body is outside this excerpt).  Spec §3:
"offsets[ℓ] = Σ_{k<ℓ} |characteristic matrix k|", with one entry per level
plus a final entry holding the total (§4.3: `size()` = `offsets[maxLevel+1]`). -/
def offsetsOf (xm : List (List ℕ)) : List ℕ :=
  (List.range (xm.length + 1)).map (sizeUpTo xm)

/-- Total number of basis functions of the hierarchical basis (`size()`). -/
def totalSize (xm : List (List ℕ)) : ℕ :=
  (xm.map List.length).sum

/-- Embedding of `gsHTensorBasis::levelOf` (gsHTensorBasis.h lines
579-584): `std::upper_bound(m_xmatrix_offset.begin(), m_xmatrix_offset.end(), i)
- m_xmatrix_offset.begin() - 1`, acting on the stored offset table `offs`.
The C++ result is an `int`; whenever the first offset entry is `≤ i`
(always true for the prefix-sum table, whose first entry is `0`) that
`int` is non-negative and equals this natural number. -/
def levelOf (offs : List ℕ) (i : ℕ) : ℕ :=
  upperBound offs i - 1

/-- Wrap-around subtraction of two 32-bit `unsigned` values, as performed
by `i - offset` in the C++ source.  For `b ≤ a < 2^32` this is `a - b`. -/
def usub32 (a b : ℕ) : ℕ :=
  (a % 2 ^ 32 + (2 ^ 32 - b % 2 ^ 32)) % 2 ^ 32

/-- Embedding of the two-argument overload
`gsHTensorBasis::flatTensorIndexOf(i, level)` (lines 688-696): reads
`offset = m_xmatrix_offset[level]` and returns
`m_xmatrix[level][i - offset]`.  Both container accesses are unchecked
`operator[]` calls in the C++; they are modelled with `getD` defaults. -/
def flatTensorIndexOfLvl (xm : List (List ℕ)) (offs : List ℕ) (i level : ℕ) : ℕ :=
  let offset := offs.getD level 0
  (xm.getD level []).getD (usub32 i offset) 0

/-- Embedding of the one-argument overload
`gsHTensorBasis::flatTensorIndexOf(i)` (lines 666-676): computes
`level = levelOf(i)` and then performs exactly the lookups of the
two-argument overload. -/
def flatTensorIndexOf (xm : List (List ℕ)) (offs : List ℕ) (i : ℕ) : ℕ :=
  let level := levelOf offs i
  let offset := offs.getD level 0
  (xm.getD level []).getD (usub32 i offset) 0

/-! Basic facts about `upperBound` (the three clauses of the
`std::upper_bound` postcondition on a sorted range). -/

theorem upperBound_le_length (l : List ℕ) (x : ℕ) :
    upperBound l x ≤ l.length := by
  simpa [upperBound] using @List.findIdx_le_length ℕ (fun o => decide (x < o)) l

theorem upperBound_before (l : List ℕ) (x : ℕ) :
    ∀ j, j < upperBound l x → l.getD j 0 ≤ x := by
  induction l with
  | nil => intro j hj; simp [upperBound] at hj
  | cons a t ih =>
    intro j hj
    simp only [upperBound, List.findIdx_cons] at hj
    by_cases hxa : x < a
    · rw [decide_eq_true hxa] at hj; simp at hj
    · rw [decide_eq_false hxa] at hj
      simp only [Bool.cond_false] at hj
      cases j with
      | zero => simpa using le_of_not_lt hxa
      | succ j => exact ih j (Nat.lt_of_succ_lt_succ hj)

theorem upperBound_at (l : List ℕ) (x : ℕ) (h : upperBound l x < l.length) :
    x < l.getD (upperBound l x) 0 := by
  induction l with
  | nil => simp [upperBound] at h
  | cons a t ih =>
    simp only [upperBound, List.findIdx_cons] at h ⊢
    by_cases hxa : x < a
    · rw [decide_eq_true hxa] at h ⊢
      simpa using hxa
    · rw [decide_eq_false hxa] at h ⊢
      simp only [Bool.cond_false, List.length_cons] at h
      simp only [Bool.cond_false, List.getD_cons_succ]
      exact ih (Nat.lt_of_succ_lt_succ h)

theorem upperBound_min (l : List ℕ) (x : ℕ) :
    ∀ j, j < l.length → x < l.getD j 0 → upperBound l x ≤ j := by
  induction l with
  | nil => intro j hj; simp at hj
  | cons a t ih =>
    intro j hj hx
    simp only [upperBound, List.findIdx_cons]
    by_cases hxa : x < a
    · rw [decide_eq_true hxa]; simp
    · rw [decide_eq_false hxa]
      simp only [Bool.cond_false]
      cases j with
      | zero => exact absurd (by simpa using hx) hxa
      | succ j =>
        exact Nat.succ_le_succ
          (ih j (Nat.lt_of_succ_lt_succ (by simpa using hj)) (by simpa using hx))

/-! Facts about the prefix-sum offset table. -/

theorem offsetsOf_length (xm : List (List ℕ)) :
    (offsetsOf xm).length = xm.length + 1 := by
  simp [offsetsOf]

theorem offsetsOf_getD (xm : List (List ℕ)) (l : ℕ) (h : l ≤ xm.length) :
    (offsetsOf xm).getD l 0 = sizeUpTo xm l := by
  have hlen : l < ((List.range (xm.length + 1)).map (sizeUpTo xm)).length := by
    simpa using Nat.lt_succ_of_le h
  rw [offsetsOf, List.getD_eq_getElem _ _ hlen]
  simp

theorem sizeUpTo_zero (xm : List (List ℕ)) : sizeUpTo xm 0 = 0 := by
  simp [sizeUpTo]

theorem sizeUpTo_full (xm : List (List ℕ)) : sizeUpTo xm xm.length = totalSize xm := by
  simp [sizeUpTo, totalSize]

theorem sum_take_le (l : List ℕ) (n : ℕ) : (l.take n).sum ≤ l.sum := by
  conv_rhs => rw [← List.take_append_drop n l]
  rw [List.sum_append]
  exact Nat.le_add_right _ _

theorem sizeUpTo_mono (xm : List (List ℕ)) {a b : ℕ} (h : a ≤ b) :
    sizeUpTo xm a ≤ sizeUpTo xm b := by
  unfold sizeUpTo
  have hab : xm.take a = (xm.take b).take a := by
    rw [List.take_take, Nat.min_eq_left h]
  rw [hab, List.map_take]
  exact sum_take_le _ _

theorem getD_default_of_le {α : Type} (l : List α) (d : α) (n : ℕ) (h : l.length ≤ n) :
    l.getD n d = d := by
  simp [List.getD_eq_getElem?_getD, List.getElem?_eq_none h]

theorem offsetsOf_getD_mono (xm : List (List ℕ)) {a b : ℕ} (hab : a ≤ b)
    (hb : b ≤ xm.length) : (offsetsOf xm).getD a 0 ≤ (offsetsOf xm).getD b 0 := by
  rw [offsetsOf_getD xm a (le_trans hab hb), offsetsOf_getD xm b hb]
  exact sizeUpTo_mono xm hab

theorem sizeUpTo_le_totalSize (xm : List (List ℕ)) (l : ℕ) :
    sizeUpTo xm l ≤ totalSize xm := by
  rcases le_or_lt l xm.length with h | h
  · rw [← sizeUpTo_full]; exact sizeUpTo_mono xm h
  · rw [show sizeUpTo xm l = totalSize xm from ?_]
    unfold sizeUpTo totalSize
    rw [List.take_of_length_le (le_of_lt h)]

/-- Claim C1 (global numbering consistency).  Given that the offset table
is the prefix sum of the characteristic-matrix sizes (the invariant
maintained by `update_structure`, stated as hypothesis `hoffs`), for every
valid global hierarchical index `i < size()`:
`offsets[levelOf(i)] ≤ i < offsets[levelOf(i)+1]`, the level returned by
`levelOf` is the unique one with that property, and reconstructing the
global index from the pair `(levelOf(i), i - offsets[levelOf(i)])` by
adding back the offset yields `i` again. -/
theorem levelOf_roundtrip (xm : List (List ℕ)) (offs : List ℕ) (i : ℕ)
    (hoffs : offs = offsetsOf xm) (hi : i < totalSize xm) :
    offs.getD (levelOf offs i) 0 ≤ i
    ∧ i < offs.getD (levelOf offs i + 1) 0
    ∧ (∀ l, offs.getD l 0 ≤ i → i < offs.getD (l + 1) 0 → l = levelOf offs i)
    ∧ offs.getD (levelOf offs i) 0 + (i - offs.getD (levelOf offs i) 0) = i := by
  subst hoffs
  have hlen := offsetsOf_length xm
  have h0 : (offsetsOf xm).getD 0 0 = 0 := by
    rw [offsetsOf_getD xm 0 (Nat.zero_le _), sizeUpTo_zero]
  have hupos : 1 ≤ upperBound (offsetsOf xm) i := by
    by_contra h
    have hu0 : upperBound (offsetsOf xm) i = 0 := by omega
    have h2 := upperBound_at (offsetsOf xm) i (by omega)
    rw [hu0, h0] at h2
    omega
  have hult : upperBound (offsetsOf xm) i ≤ xm.length := by
    apply upperBound_min (offsetsOf xm) i xm.length (by omega)
    rw [offsetsOf_getD xm xm.length le_rfl, sizeUpTo_full]
    exact hi
  have hlvl : levelOf (offsetsOf xm) i + 1 = upperBound (offsetsOf xm) i := by
    unfold levelOf; omega
  have hb1 : (offsetsOf xm).getD (levelOf (offsetsOf xm) i) 0 ≤ i := by
    apply upperBound_before (offsetsOf xm) i
    unfold levelOf; omega
  have hb2 : i < (offsetsOf xm).getD (levelOf (offsetsOf xm) i + 1) 0 := by
    rw [hlvl]
    exact upperBound_at (offsetsOf xm) i (by omega)
  refine ⟨hb1, hb2, ?_, by omega⟩
  intro l h1 h2
  have hl1 : l + 1 ≤ xm.length := by
    by_contra h
    rw [getD_default_of_le _ _ _ (by omega)] at h2
    omega
  have hle : upperBound (offsetsOf xm) i ≤ l + 1 :=
    upperBound_min (offsetsOf xm) i (l + 1) (by omega) h2
  have hge : l + 1 ≤ upperBound (offsetsOf xm) i := by
    by_contra h
    have hul : upperBound (offsetsOf xm) i ≤ l := by omega
    have := offsetsOf_getD_mono xm hul (le_trans (Nat.le_succ l) hl1)
    have h3 := upperBound_at (offsetsOf xm) i (by omega)
    omega
  unfold levelOf
  omega

/-- Witness for C1: a two-level basis with characteristic matrices of
sizes 2 and 3 and the valid global index `i = 3` (a level-1 function). -/
theorem levelOf_roundtrip_witness :
    (offsetsOf [[0, 1], [2, 3, 4]]).getD (levelOf (offsetsOf [[0, 1], [2, 3, 4]]) 3) 0 ≤ 3
    ∧ 3 < (offsetsOf [[0, 1], [2, 3, 4]]).getD (levelOf (offsetsOf [[0, 1], [2, 3, 4]]) 3 + 1) 0
    ∧ (∀ l, (offsetsOf [[0, 1], [2, 3, 4]]).getD l 0 ≤ 3 →
        3 < (offsetsOf [[0, 1], [2, 3, 4]]).getD (l + 1) 0 →
        l = levelOf (offsetsOf [[0, 1], [2, 3, 4]]) 3)
    ∧ (offsetsOf [[0, 1], [2, 3, 4]]).getD (levelOf (offsetsOf [[0, 1], [2, 3, 4]]) 3) 0
      + (3 - (offsetsOf [[0, 1], [2, 3, 4]]).getD (levelOf (offsetsOf [[0, 1], [2, 3, 4]]) 3) 0) = 3 :=
  levelOf_roundtrip [[0, 1], [2, 3, 4]] (offsetsOf [[0, 1], [2, 3, 4]]) 3 rfl (by decide)

/-- Claim C10 (agreement of the two `flatTensorIndexOf` overloads): for
every basis state and every global index `i`, the one-argument overload
returns exactly what the two-argument overload returns when called with
`level = levelOf(i)` — the C++ one-argument body inlines precisely that
computation, so the equality holds definitionally over the embedding. -/
theorem flatTensorIndexOf_overloads_agree (xm : List (List ℕ)) (offs : List ℕ) (i : ℕ) :
    flatTensorIndexOf xm offs i = flatTensorIndexOfLvl xm offs i (levelOf offs i) := rfl

/-- Counterexample for claim C6: `levelOf` (gsHTensorBasis.h:579-584)
contains no `GISMO_ASSERT`.  On the basis state with characteristic
matrices of sizes 3 and 2 (`size() = 5`) the out-of-range call
`levelOf(5)` returns the ordinary value 2 (= `m_xmatrix.size()`, one past
the last valid level) — the call returns a value rather than aborting. -/
theorem levelOf_no_assert_counterexample :
    levelOf (offsetsOf [[0, 1, 2], [0, 1]]) (totalSize [[0, 1, 2], [0, 1]]) = 2 := by decide

/-- Claim C6 amended: out-of-range global indices are NOT diagnosed.
`levelOf` performs no range check: for every `i ≥ size()` it returns
`m_xmatrix.size()` (one past the largest valid level) as an ordinary
value, and the one-argument `flatTensorIndexOf` then performs unchecked
out-of-range container accesses (undefined behaviour in C++, the `getD`
defaults — hence the value 0 — in this embedding) instead of asserting. -/
theorem levelOf_out_of_range (xm : List (List ℕ)) (i : ℕ) (hi : totalSize xm ≤ i) :
    levelOf (offsetsOf xm) i = xm.length
    ∧ flatTensorIndexOf xm (offsetsOf xm) i = 0 := by
  have hlen := offsetsOf_length xm
  have hub : upperBound (offsetsOf xm) i = (offsetsOf xm).length := by
    by_contra h
    have hlt : upperBound (offsetsOf xm) i < (offsetsOf xm).length :=
      lt_of_le_of_ne (upperBound_le_length _ _) h
    have h2 := upperBound_at (offsetsOf xm) i hlt
    rw [offsetsOf_getD xm _ (by omega)] at h2
    have h3 := sizeUpTo_le_totalSize xm (upperBound (offsetsOf xm) i)
    omega
  have hlv : levelOf (offsetsOf xm) i = xm.length := by
    unfold levelOf; omega
  refine ⟨hlv, ?_⟩
  show (xm.getD (levelOf (offsetsOf xm) i) []).getD
      (usub32 i ((offsetsOf xm).getD (levelOf (offsetsOf xm) i) 0)) 0 = 0
  rw [hlv, getD_default_of_le xm [] xm.length le_rfl]
  simp

/-- Witness for the amended C6: with matrices of sizes 1 and 2
(`size() = 3`), the out-of-range index 9 yields `levelOf = 2` and a junk
flat tensor index, with no abort. -/
theorem levelOf_out_of_range_witness :
    levelOf (offsetsOf [[5], [6, 7]]) 9 = 2
    ∧ flatTensorIndexOf [[5], [6, 7]] (offsetsOf [[5], [6, 7]]) 9 = 0 :=
  levelOf_out_of_range [[5], [6, 7]] 9 (by decide)

/-! Constructor precondition checks (claim C7).  Each definition records
whether the `GISMO_ASSERT` statements at the head of the corresponding
`gsHTensorBasis` constructor all pass (`true` = construction proceeds,
`false` = fatal assertion). -/

/-- Asserts of `gsHTensorBasis(tbasis, nlevels)` (h:104-110):
`GISMO_ASSERT(nlevels > 0)`. -/
def ctorPlainAsserts (nlevels : ℤ) : Bool :=
  decide (0 < nlevels)

/-- Asserts of `gsHTensorBasis(tbasis, nlevels, std::vector<unsigned> boxes)`
(h:112-137): `GISMO_ASSERT(nlevels > 0)` and
`GISMO_ASSERT(boxes.size() % (2*d+1) == 0)`. -/
def ctorFlatBoxAsserts (d : ℕ) (nlevels : ℤ) (boxesLen : ℕ) : Bool :=
  decide (0 < nlevels) && decide (boxesLen % (2 * d + 1) = 0)

/-- Asserts of `gsHTensorBasis(tbasis, nlevels, gsMatrix boxes)` (h:149-156):
`GISMO_ASSERT(boxes.rows() == d)`, `GISMO_ASSERT(boxes.cols() % 2 == 0)`,
`GISMO_ASSERT(nlevels > 0)`. -/
def ctorMatrixAsserts (d : ℕ) (nlevels : ℤ) (rows cols : ℕ) : Bool :=
  decide (rows = d) && decide (cols % 2 = 0) && decide (0 < nlevels)

/-- Asserts of `gsHTensorBasis(tbasis, nlevels, gsMatrix boxes, levels)`
(h:191-198): `GISMO_ASSERT(boxes.rows() == d)`,
`GISMO_ASSERT(boxes.cols() % 2 == 0)`,
`GISMO_ASSERT(boxes.cols()/2 <= levels.size())`.  The `nlevels` argument
is accepted but never read by this constructor: there is no
`GISMO_ASSERT(nlevels > 0)` here. -/
def ctorMatrixLevelsAsserts (d : ℕ) (nlevels : ℤ) (rows cols levelsLen : ℕ) : Bool :=
  decide (rows = d) && decide (cols % 2 = 0) && decide (cols / 2 ≤ levelsLen)

/-- Counterexample for claim C7: not every constructor aborts on a level
count `nlevels ≤ 0`.  The `(tbasis, nlevels, boxes, levels)` constructor
with `d = 2`, `nlevels = 0` and a well-formed one-box matrix (2 rows,
2 columns, one level entry) passes all of its assertions and proceeds. -/
theorem ctorMatrixLevels_no_nlevels_check :
    ctorMatrixLevelsAsserts 2 0 2 2 1 = true := rfl

/-- Claim C7 amended: three of the four box constructors assert exactly
the advertised preconditions — the plain constructor rejects
`nlevels ≤ 0`; the flat-box constructor additionally rejects a box vector
whose length is not a multiple of `2d+1`; the box-matrix constructor
rejects a row count different from `d`, an odd column count, and
`nlevels ≤ 0` — but the `(tbasis, nlevels, boxes, levels)` constructor
checks only the matrix shape and the level-list length and does not
validate `nlevels` (which it never uses). -/
theorem ctor_asserts_characterization :
    (∀ n : ℤ, ctorPlainAsserts n = false ↔ n ≤ 0)
    ∧ (∀ (d : ℕ) (n : ℤ) (len : ℕ),
        ctorFlatBoxAsserts d n len = true ↔ 0 < n ∧ len % (2 * d + 1) = 0)
    ∧ (∀ (d : ℕ) (n : ℤ) (r c : ℕ),
        ctorMatrixAsserts d n r c = true ↔ r = d ∧ c % 2 = 0 ∧ 0 < n)
    ∧ (∀ (d : ℕ) (n : ℤ) (r c L : ℕ),
        ctorMatrixLevelsAsserts d n r c L = true ↔ r = d ∧ c % 2 = 0 ∧ c / 2 ≤ L) := by
  refine ⟨fun n => ?_, fun d n len => ?_, fun d n r c => ?_, fun d n r c L => ?_⟩
  · simp [ctorPlainAsserts, not_lt]
  · simp [ctorFlatBoxAsserts]
  · simp [ctorMatrixAsserts, and_assoc]
  · simp [ctorMatrixLevelsAsserts, and_assoc]

/-! Lazy level creation (claim C9).  The bodies of `needLevel` and
`createMoreLevels` (declared h:782-787) are outside this excerpt; they
are modelled from the spec below. -/

/-- Chain of `k` successively finer tensor bases generated from `b`
(level `ℓ+1` is a refinement of level `ℓ`, spec §3). -/
def extendFrom {α : Type} (finer : α → α) : α → ℕ → List α
  | _, 0 => []
  | b, k + 1 => finer b :: extendFrom finer (finer b) k

/-- Modelled from the spec: `gsHTensorBasis::createMoreLevels(numLevels)`
"creates numLevels extra grids in the hierarchy" (h:786-787) — appends
`k` new tensor bases, each a refinement of the previous finest one, to
the append-only level sequence `m_bases`. -/
def createMoreLevels {α : Type} (finer : α → α) (k : ℕ) (bases : List α) : List α :=
  match bases.getLast? with
  | none => bases
  | some b => bases ++ extendFrom finer b k

/-- Modelled from the spec: `gsHTensorBasis::needLevel(n)` "makes sure
that there are enough grids computed in the hierarchy" (h:782-784, spec
§5 and §7(b)) — if level `n` already exists the sequence is untouched,
otherwise the missing finer levels are created via `createMoreLevels`. -/
def needLevel {α : Type} (finer : α → α) (n : ℕ) (bases : List α) : List α :=
  if n + 1 ≤ bases.length then bases
  else createMoreLevels finer (n + 1 - bases.length) bases

theorem extendFrom_length {α : Type} (finer : α → α) (b : α) (k : ℕ) :
    (extendFrom finer b k).length = k := by
  induction k generalizing b with
  | zero => rfl
  | succ k ih => simp [extendFrom, ih]

theorem createMoreLevels_length {α : Type} (finer : α → α) (k : ℕ) (bases : List α) :
    bases.length ≤ (createMoreLevels finer k bases).length := by
  unfold createMoreLevels
  cases bases.getLast? with
  | none => exact le_rfl
  | some b => simp

/-- Claim C9 (lazy level creation is idempotent and monotonic): for every
level sequence, `needLevel n` for an already-available level `n` is a
no-op (the per-level basis sequence is unchanged), and no call to
`needLevel` or `createMoreLevels` — for any requested level or count —
ever shrinks the level sequence. -/
theorem needLevel_lazy_monotone {α : Type} (finer : α → α) (n k m : ℕ)
    (bases : List α) (h : n < bases.length) :
    needLevel finer n bases = bases
    ∧ bases.length ≤ (needLevel finer m bases).length
    ∧ bases.length ≤ (createMoreLevels finer k bases).length := by
  refine ⟨?_, ?_, createMoreLevels_length finer k bases⟩
  · unfold needLevel
    rw [if_pos (by omega)]
  unfold needLevel
  by_cases hm : m + 1 ≤ bases.length
  · simp [hm]
  · simp only [hm, if_false]
    exact createMoreLevels_length finer _ bases

/-- Witness for C9: a three-level sequence; requesting the available
level 1 is a no-op, and requests for level 7 or five extra levels never
shrink the sequence. -/
theorem needLevel_lazy_monotone_witness :
    needLevel Nat.succ 1 [10, 20, 30] = [10, 20, 30]
    ∧ ([10, 20, 30] : List ℕ).length ≤ (needLevel Nat.succ 7 [10, 20, 30]).length
    ∧ ([10, 20, 30] : List ℕ).length ≤ (createMoreLevels Nat.succ 5 [10, 20, 30]).length :=
  needLevel_lazy_monotone Nat.succ 1 5 7 [10, 20, 30] (by decide)

/-! Domain tree and characteristic-matrix selection (claims C8 and C3).
The bodies of `gsHDomain::insertBox`, `gsHTensorBasis::insert_box`,
`refineElements` and `update_structure` are outside this excerpt
(declarations h:855-857, h:615-640, h:778-780); they are modelled from
the spec below. -/

/-- Recursion underlying `insertBox`: walks the cell array with the
current cell index, raising the tagged level of every cell inside the
box. -/
def insertBoxGo (mem : ℕ → Bool) (L : ℕ) : ℕ → List ℕ → List ℕ
  | _, [] => []
  | c, lvl :: rest => (if mem c then max lvl L else lvl) :: insertBoxGo mem L (c + 1) rest

/-- Modelled from the spec: `gsHDomain::insertBox(low, high, level)`
(spec §4.1, §3 "Domain Tree").  The tree is flattened to the level tag of
every cell of the finest index grid (`t`); the d-dimensional axis-aligned
box is abstracted by its decidable cell-membership predicate `mem`.
Insertion at level `L` "subdivides any coarser-tagged region it overlaps,
but never decreases the recorded level of a region finer than L": each
covered cell's tag becomes the maximum of its old tag and `L`. -/
def insertBox (t : List ℕ) (mem : ℕ → Bool) (L : ℕ) : List ℕ :=
  insertBoxGo mem L 0 t

/-- Modelled from the spec: the selection step of `update_structure()`
(spec §4.2) for one level — "iterate all tensor-basis functions of level
ℓ and select those whose full support region is entirely covered by tree
regions tagged exactly ℓ (neither coarser nor finer); assemble the
characteristic matrix for ℓ as the sorted set of such indices".  `sups`
lists, per tensor-function index of this level, the function's support as
a list of finest-grid cells. -/
def charMatrixAt (t : List ℕ) (sups : List (List ℕ)) (lvl : ℕ) : List ℕ :=
  (List.range sups.length).filter
    (fun j => (sups.getD j []).all (fun c => t.getD c 0 == lvl))

/-- Modelled from the spec: all characteristic matrices as rebuilt by
`update_structure()` — one selection per level, from that level's family
of tensor-function supports. -/
def charMatrices (t : List ℕ) (supsPerLevel : List (List (List ℕ))) : List (List ℕ) :=
  (List.range supsPerLevel.length).map
    (fun lvl => charMatrixAt t (supsPerLevel.getD lvl []) lvl)

/-- Decides whether finest-grid cell `c` lies in the support of some
function selected into some level's characteristic matrix. -/
def coveredBy (t : List ℕ) (supsPerLevel : List (List (List ℕ))) (c : ℕ) : Bool :=
  (List.range supsPerLevel.length).any
    (fun lvl => (charMatrixAt t (supsPerLevel.getD lvl []) lvl).any
      (fun j => ((supsPerLevel.getD lvl []).getD j []).contains c))

theorem insertBoxGo_idem (mem : ℕ → Bool) (L : ℕ) :
    ∀ (c : ℕ) (t : List ℕ),
      insertBoxGo mem L c (insertBoxGo mem L c t) = insertBoxGo mem L c t := by
  intro c t
  induction t generalizing c with
  | nil => rfl
  | cons lvl rest ih =>
    simp only [insertBoxGo]
    by_cases hm : mem c
    · simp [hm, ih, Nat.max_assoc]
    · simp [hm, ih]

/-- Claim C8 (idempotent box re-insertion): for every tree state, every
box and every level, inserting the identical box at the same level a
second time leaves the tree, every characteristic matrix rebuilt by
`update_structure`, and the total basis size unchanged relative to the
state after the first insertion. -/
theorem insert_box_idempotent (t : List ℕ) (mem : ℕ → Bool) (L : ℕ)
    (supsPerLevel : List (List (List ℕ))) :
    insertBox (insertBox t mem L) mem L = insertBox t mem L
    ∧ charMatrices (insertBox (insertBox t mem L) mem L) supsPerLevel
        = charMatrices (insertBox t mem L) supsPerLevel
    ∧ totalSize (charMatrices (insertBox (insertBox t mem L) mem L) supsPerLevel)
        = totalSize (charMatrices (insertBox t mem L) supsPerLevel) := by
  have h : insertBox (insertBox t mem L) mem L = insertBox t mem L :=
    insertBoxGo_idem mem L 0 t
  exact ⟨h, by rw [h], by rw [h]⟩

/-- Counterexample for claim C3: on the three-cell domain with tree tags
`[0, 1, 1]`, level 0 owning one function with support `{cell 0}` and
level 1 owning one function with support `{cell 1}`, `update_structure`
selects function index 0 at level 0 AND function index 0 at level 1 — the
same numeric tensor-function index appears in two different levels'
characteristic matrices (the two indices denote different functions) —
and cell 2 of the domain lies in the support of no selected function, so
the union of the selections' supports does not tile the domain. -/
theorem charMatrices_partition_counterexample :
    ((charMatrices [0, 1, 1] [[[0]], [[1]]]).getD 0 []).contains 0 = true
    ∧ ((charMatrices [0, 1, 1] [[[0]], [[1]]]).getD 1 []).contains 0 = true
    ∧ coveredBy [0, 1, 1] [[[0]], [[1]]] 2 = false := by decide

/-- Claim C3 amended: the disjointness guaranteed by `update_structure`
is semantic, not numeric.  Every function selected at level ℓ has its
whole support inside the region the tree tags exactly ℓ; regions of
distinct levels are disjoint, so two functions selected at distinct
levels always have disjoint supports — no function, identified by its
support, is ever selected from two levels (numeric indices may repeat
across levels, and the union of the supports need not cover the whole
domain; it is the tree regions that tile it). -/
theorem charMatrices_disjoint_levels (t : List ℕ) (supsPerLevel : List (List (List ℕ)))
    (lvl lvl' j j' : ℕ) (hne : lvl ≠ lvl')
    (hj : j ∈ charMatrixAt t (supsPerLevel.getD lvl []) lvl)
    (hj' : j' ∈ charMatrixAt t (supsPerLevel.getD lvl' []) lvl') :
    (∀ c ∈ ((supsPerLevel.getD lvl []).getD j []), t.getD c 0 = lvl)
    ∧ (∀ c ∈ ((supsPerLevel.getD lvl' []).getD j' []), t.getD c 0 = lvl')
    ∧ ∀ c, c ∈ ((supsPerLevel.getD lvl []).getD j [])
        → c ∉ ((supsPerLevel.getD lvl' []).getD j' []) := by
  rw [charMatrixAt, List.mem_filter] at hj hj'
  have h1 : ∀ c ∈ ((supsPerLevel.getD lvl []).getD j []), t.getD c 0 = lvl := by
    intro c hc
    have := (List.all_eq_true.mp hj.2) c hc
    simpa using this
  have h2 : ∀ c ∈ ((supsPerLevel.getD lvl' []).getD j' []), t.getD c 0 = lvl' := by
    intro c hc
    have := (List.all_eq_true.mp hj'.2) c hc
    simpa using this
  refine ⟨h1, h2, ?_⟩
  intro c hc hc'
  exact hne ((h1 c hc).symm.trans (h2 c hc'))

/-- Witness for the amended C3: tree tags `[0, 0, 1]`, one level-0
function with support `{0, 1}` and one level-1 function with support
`{2}`; both are selected and their supports are disjoint. -/
theorem charMatrices_disjoint_levels_witness :
    (∀ c ∈ ((([[[0, 1]], [[2]]] : List (List (List ℕ))).getD 0 []).getD 0 []),
        ([0, 0, 1] : List ℕ).getD c 0 = 0)
    ∧ (∀ c ∈ ((([[[0, 1]], [[2]]] : List (List (List ℕ))).getD 1 []).getD 0 []),
        ([0, 0, 1] : List ℕ).getD c 0 = 1)
    ∧ ∀ c, c ∈ ((([[[0, 1]], [[2]]] : List (List (List ℕ))).getD 0 []).getD 0 [])
        → c ∉ ((([[[0, 1]], [[2]]] : List (List (List ℕ))).getD 1 []).getD 0 []) :=
  charMatrices_disjoint_levels [0, 0, 1] [[[0, 1]], [[2]]] 0 1 0 0
    (by decide) (by decide) (by decide)

/-! Physical-coordinate box insertion (claim C4): the loop of the
constructor `gsHTensorBasis(tbasis, nlevels, gsMatrix boxes)`
(h:149-181), which `refine` reuses for physical-coordinate boxes.  The
tree (`query3`/`insert_box` bodies are outside this excerpt) and the
per-level knot-span lookup `gsCompactKnotVector::Uniquefindspan` are kept
abstract: `σ` is the tree state, `q3 s k1 k2 m` the `query3` result,
`insertB` the tree insertion, and `ufs lvl j v` the unique-knot span of
value `v` in direction `j` of level `lvl`. -/

/-- Corner computation of the constructor loop at level `lvl`:
`k1[j] = Uniquefindspan(boxes(j,2i))` and
`k2[j] = Uniquefindspan(boxes(j,2i+1)) + 1` for every direction `j`. -/
def cornersAt (ufs : ℕ → ℕ → ℚ → ℕ) (lvl : ℕ) (box : List ℚ × List ℚ) :
    List ℕ × List ℕ :=
  (box.1.mapIdx (fun j v => ufs lvl j v), box.2.mapIdx (fun j v => ufs lvl j v + 1))

/-- One iteration of the constructor loop (h:161-180): compute the box
corners in the finest level's index space, call
`query3(k1, k2, m_bases.size()-1)`, recompute the corners in the knot
spans of level `query3+1`, insert the box at that level, and return the
new tree state together with the recorded insertion. -/
def ctorStep {σ : Type} (q3 : σ → List ℕ → List ℕ → ℕ → ℕ)
    (insertB : σ → List ℕ → List ℕ → ℕ → σ) (ufs : ℕ → ℕ → ℚ → ℕ)
    (finest : ℕ) (s : σ) (box : List ℚ × List ℚ) :
    σ × (List ℕ × List ℕ × ℕ) :=
  let kk := cornersAt ufs finest box
  let level := q3 s kk.1 kk.2 finest
  let kk2 := cornersAt ufs (level + 1) box
  (insertB s kk2.1 kk2.2 (level + 1), (kk2.1, kk2.2, level + 1))

/-- The whole constructor loop: processes the boxes in order, threading
the tree state (each `query3` sees the previous insertions; the
`update_structure()` call per box does not change the tree), and returns
the sequence of tree insertions performed. -/
def ctorBoxesGo {σ : Type} (q3 : σ → List ℕ → List ℕ → ℕ → ℕ)
    (insertB : σ → List ℕ → List ℕ → ℕ → σ) (ufs : ℕ → ℕ → ℚ → ℕ)
    (finest : ℕ) (s : σ) : List (List ℚ × List ℚ) → List (List ℕ × List ℕ × ℕ)
  | [] => []
  | b :: bs =>
    (ctorStep q3 insertB ufs finest s b).2
      :: ctorBoxesGo q3 insertB ufs finest (ctorStep q3 insertB ufs finest s b).1 bs

/-- Tree state reached after the first `n` boxes of the loop. -/
def stateBefore {σ : Type} (q3 : σ → List ℕ → List ℕ → ℕ → ℕ)
    (insertB : σ → List ℕ → List ℕ → ℕ → σ) (ufs : ℕ → ℕ → ℚ → ℕ)
    (finest : ℕ) (s : σ) (boxes : List (List ℚ × List ℚ)) (n : ℕ) : σ :=
  (boxes.take n).foldl (fun st b => (ctorStep q3 insertB ufs finest st b).1) s

/-- The insertion the claim describes for one box, given the tree state
seen by its `query3` call: level = `query3` on the box's index-space
corners plus one, corners recomputed in that finer level's knot-span
index coordinates. -/
def claimedInsertion {σ : Type} (q3 : σ → List ℕ → List ℕ → ℕ → ℕ)
    (ufs : ℕ → ℕ → ℚ → ℕ) (finest : ℕ) (st : σ) (box : List ℚ × List ℚ) :
    List ℕ × List ℕ × ℕ :=
  let kk := cornersAt ufs finest box
  let level := q3 st kk.1 kk.2 finest + 1
  let kk2 := cornersAt ufs level box
  (kk2.1, kk2.2, level)

/-- Claim C4 (insertion level for physical-coordinate boxes): the
constructor taking boxes as physical coordinate ranges (and `refine`)
performs exactly one tree insertion per box, and the `n`-th insertion
carries level `query3(corners, maxLevel) + 1` — computed on the box's
index-space corners against the tree state left by the previous boxes —
with the box inserted at exactly that level and its corners recomputed in
that finer level's knot-span index coordinates. -/
theorem ctorBoxesGo_length {σ : Type} (q3 : σ → List ℕ → List ℕ → ℕ → ℕ)
    (insertB : σ → List ℕ → List ℕ → ℕ → σ) (ufs : ℕ → ℕ → ℚ → ℕ)
    (finest : ℕ) (s : σ) (boxes : List (List ℚ × List ℚ)) :
    (ctorBoxesGo q3 insertB ufs finest s boxes).length = boxes.length := by
  induction boxes generalizing s with
  | nil => rfl
  | cons b bs ih => simp [ctorBoxesGo, ih]

theorem ctor_physical_boxes_insertion {σ : Type}
    (q3 : σ → List ℕ → List ℕ → ℕ → ℕ) (insertB : σ → List ℕ → List ℕ → ℕ → σ)
    (ufs : ℕ → ℕ → ℚ → ℕ) (finest : ℕ) (s : σ) (boxes : List (List ℚ × List ℚ))
    (n : ℕ) (hn : n < boxes.length) :
    (ctorBoxesGo q3 insertB ufs finest s boxes).length = boxes.length
    ∧ (ctorBoxesGo q3 insertB ufs finest s boxes).getD n ([], [], 0)
        = claimedInsertion q3 ufs finest
            (stateBefore q3 insertB ufs finest s boxes n) (boxes.getD n ([], [])) := by
  refine ⟨ctorBoxesGo_length q3 insertB ufs finest s boxes, ?_⟩
  induction boxes generalizing s n with
  | nil => simp at hn
  | cons b bs ih =>
    cases n with
    | zero => rfl
    | succ n =>
      have hbs : n < bs.length := Nat.lt_of_succ_lt_succ hn
      have := ih (ctorStep q3 insertB ufs finest s b).1 n hbs
      simpa [ctorBoxesGo, stateBefore] using this

/-- Witness for C4: two one-dimensional boxes, an arbitrary concrete tree
state (`ℕ` accumulator), `query3` and span lookup; the second box's
recorded insertion matches the claimed description computed from the
state the first box left behind. -/
theorem ctor_physical_boxes_insertion_witness :
    (ctorBoxesGo (fun (s : ℕ) k1 k2 m => s + k1.sum + k2.sum + m)
        (fun s k1 k2 l => s + k1.sum + k2.sum + l)
        (fun lvl j _ => lvl + j + 1) 1 0 [([0], [1]), ([2], [3])]).length
      = ([([0], [1]), ([2], [3])] : List (List ℚ × List ℚ)).length
    ∧ (ctorBoxesGo (fun (s : ℕ) k1 k2 m => s + k1.sum + k2.sum + m)
        (fun s k1 k2 l => s + k1.sum + k2.sum + l)
        (fun lvl j _ => lvl + j + 1) 1 0 [([0], [1]), ([2], [3])]).getD 1 ([], [], 0)
      = claimedInsertion (fun (s : ℕ) k1 k2 m => s + k1.sum + k2.sum + m)
          (fun lvl j _ => lvl + j + 1) 1
          (stateBefore (fun (s : ℕ) k1 k2 m => s + k1.sum + k2.sum + m)
            (fun s k1 k2 l => s + k1.sum + k2.sum + l)
            (fun lvl j _ => lvl + j + 1) 1 0 [([0], [1]), ([2], [3])] 1)
          (([([0], [1]), ([2], [3])] : List (List ℚ × List ℚ)).getD 1 ([], [])) :=
  ctor_physical_boxes_insertion _ _ _ 1 0 _ 1 (by decide)

/-! Refinement transfer (claim C2).  The body of
`gsHTensorBasis::transfer` (declared h:881-882) and the
`coarsening`/`coarsening_direct` hooks it dispatches to (pure virtual,
h:870-871, implemented by the THB variants outside this excerpt) are not
in the source excerpt; the transfer operator is modelled from spec §4.5.
Basis functions are abstract rational-valued functions of the parameter;
`R i j` is the exact knot-insertion coefficient of fine function `j` in
the refinement of coarse function `i`. -/

/-- The spline function represented by coefficient vector `c` over basis
`b`, evaluated at the parameter point `x`. -/
def evalSpline {m : ℕ} (c : Fin m → ℚ) (b : Fin m → ℚ → ℚ) (x : ℚ) : ℚ :=
  ∑ i, c i * b i x

/-- Modelled from the spec: application of the transfer matrix `M`
produced by `transfer(oldCharacteristicMatrices, result)` — assembled
per level-pair from "the standard B-spline knot-insertion coefficient
formula" (spec §4.5) — to a coarse coefficient vector:
`(M * c_old)_j = Σ_i R i j * c_i`. -/
def applyTransfer {m n : ℕ} (R : Fin m → Fin n → ℚ) (c : Fin m → ℚ) : Fin n → ℚ :=
  fun j => ∑ i, R i j * c i

/-- Claim C2 (coefficient preservation of refinement transfer): when the
knot-insertion coefficients are exact — every pre-refinement basis
function `b i` is exactly the `R`-combination of the refined basis
functions `f j` ("knot insertion is exact in B-spline arithmetic", the
two-scale relation of the nested spline spaces, hypothesis `hR`) — the
matrix `M` built from them maps any coefficient vector `c` of the
pre-refinement basis to coefficients `M * c` that represent exactly the
same spline function: the value at every parameter point is unchanged.
This is the contract `refine_withCoefs` / `uniformRefine_withCoefs`
(h:515-519) rely on when they transfer a geometry's coefficients. -/
theorem transfer_preserves_function {m n : ℕ} (b : Fin m → ℚ → ℚ)
    (f : Fin n → ℚ → ℚ) (R : Fin m → Fin n → ℚ)
    (hR : ∀ i x, b i x = ∑ j, R i j * f j x) (c : Fin m → ℚ) (x : ℚ) :
    evalSpline c b x = evalSpline (applyTransfer R c) f x := by
  unfold evalSpline applyTransfer
  calc ∑ i, c i * b i x
      = ∑ i, ∑ j, c i * (R i j * f j x) := by simp_rw [hR, Finset.mul_sum]
    _ = ∑ j, ∑ i, c i * (R i j * f j x) := Finset.sum_comm
    _ = ∑ j, (∑ i, R i j * c i) * f j x := by
        refine Finset.sum_congr rfl fun j _ => ?_
        rw [Finset.sum_mul]
        exact Finset.sum_congr rfl fun i _ => by ring

/-- Witness for C2: one coarse function `2 + x` refined into the basis
`{1, x}` with insertion coefficients `(2, 1)` and coefficient vector
`c = (5)`, evaluated at `x = 7`. -/
theorem transfer_preserves_function_witness :
    evalSpline (fun _ => (5 : ℚ)) (fun (_ : Fin 1) x => 2 + x) 7
      = evalSpline
          (applyTransfer (fun (_ : Fin 1) (j : Fin 2) => if j.val = 0 then 2 else 1)
            (fun _ => 5))
          (fun (j : Fin 2) x => if j.val = 0 then 1 else x) 7 :=
  transfer_preserves_function _ _ _
    (by intro i x; simp [Fin.sum_univ_two]) _ 7

/-! Knot-vector difference (claim C5): the static member
`gsHTensorBasis::_differenceBetweenKnotVectors` (h:801-846), whose body
is fully contained in the header.  A `gsCompactKnotVector<T>` is
represented by its strictly increasing unique knot values paired with
their multiplicities; the knot value type is any linear order (`double`
in the instantiation used by the library). -/

/-- Lookup `gsCompactKnotVector::uValue(i)`: the `i`-th unique knot value.
The C++ access is unchecked; out-of-range reads are modelled by the
`default` inhabitant. -/
def uValue {α : Type} [Inhabited α] (kv : List (α × ℕ)) (i : ℕ) : α :=
  (kv.getD i default).1

/-- Lookup `gsCompactKnotVector::u_multiplicityIndex(i)`: the
multiplicity of the `i`-th unique knot value. -/
def uMult {α : Type} [Inhabited α] (kv : List (α × ℕ)) (i : ℕ) : ℕ :=
  (kv.getD i default).2

/-- The loop of `_differenceBetweenKnotVectors` (h:819-845):
`while (f_index <= f_high)` reads the current fine and coarse unique
knots; on equality it emits the multiplicity excess (when positive) and
advances both cursors, otherwise (the code's `// f_knot < c_knot` branch)
it emits the full fine multiplicity and advances only the fine cursor.
`fuel` counts the remaining iterations `f_high + 1 - f_index`; each
iteration increments `f_index`, so the loop runs exactly that often. -/
def diffGo {α : Type} [LinearOrder α] [Inhabited α] (ckv fkv : List (α × ℕ)) :
    ℕ → ℕ → ℕ → List α
  | 0, _, _ => []
  | fuel + 1, f_index, c_index =>
    let f_knot := uValue fkv f_index
    let c_knot := uValue ckv c_index
    let f_m := uMult fkv f_index
    if f_knot = c_knot then
      (if uMult ckv c_index < f_m then List.replicate (f_m - uMult ckv c_index) f_knot
       else [])
        ++ diffGo ckv fkv fuel (f_index + 1) (c_index + 1)
    else
      List.replicate f_m f_knot ++ diffGo ckv fkv fuel (f_index + 1) c_index

/-- Embedding of
`_differenceBetweenKnotVectors(ckv, c_low, c_high, fkv, f_low, f_high, knots)`:
runs the loop from `(f_low, c_low)` and appends its output to `knots`.
The parameter `c_high` is accepted but never read by the C++ loop, which
bounds only the fine cursor. -/
def differenceBetweenKnotVectors {α : Type} [LinearOrder α] [Inhabited α]
    (ckv : List (α × ℕ)) (c_low c_high : ℕ) (fkv : List (α × ℕ))
    (f_low f_high : ℕ) (knots : List α) : List α :=
  knots ++ diffGo ckv fkv (f_high + 1 - f_low) f_low c_low

/-- Multiplicity of knot value `v` among the coarse unique knots at
index `c_low` or later (`0` when `v` is absent there). -/
def multFrom {α : Type} [DecidableEq α] (ckv : List (α × ℕ)) (c_low : ℕ) (v : α) : ℕ :=
  match (ckv.drop c_low).find? (fun p => decide (p.1 = v)) with
  | some p => p.2
  | none => 0

/-- The output the claim describes: for each fine unique-knot index `k`
in `[f_low, f_high]` in order, the fine value repeated as many times as
its fine multiplicity exceeds its coarse multiplicity (its full fine
multiplicity when it is absent from the coarse vector). -/
def claimedDiff {α : Type} [LinearOrder α] [Inhabited α] (ckv : List (α × ℕ))
    (c_low : ℕ) (fkv : List (α × ℕ)) (f_low f_high : ℕ) : List α :=
  (List.range' f_low (f_high + 1 - f_low)).flatMap
    (fun k => List.replicate (uMult fkv k - multFrom ckv c_low (uValue fkv k))
      (uValue fkv k))

theorem uValue_lt_uValue {α : Type} [LinearOrder α] [Inhabited α]
    (kv : List (α × ℕ)) (h : kv.Pairwise (fun p q => p.1 < q.1))
    {i j : ℕ} (hij : i < j) (hj : j < kv.length) :
    uValue kv i < uValue kv j := by
  have hi : i < kv.length := lt_trans hij hj
  have hp := List.pairwise_iff_get.mp h ⟨i, hi⟩ ⟨j, hj⟩ hij
  unfold uValue
  rw [List.getD_eq_getElem _ _ hi, List.getD_eq_getElem _ _ hj]
  simpa [List.get_eq_getElem] using hp

theorem uValue_le_uValue {α : Type} [LinearOrder α] [Inhabited α]
    (kv : List (α × ℕ)) (h : kv.Pairwise (fun p q => p.1 < q.1))
    {i j : ℕ} (hij : i ≤ j) (hj : j < kv.length) :
    uValue kv i ≤ uValue kv j := by
  rcases lt_or_eq_of_le hij with hlt | heq
  · exact le_of_lt (uValue_lt_uValue kv h hlt hj)
  · rw [heq]

/-- The guarded emission of the matching branch equals the truncated
multiplicity difference (when `b ≥ a` the guard skips the push and the
natural subtraction is zero). -/
theorem replicate_excess {α : Type} (a b : ℕ) (v : α) :
    (if b < a then List.replicate (a - b) v else []) = List.replicate (a - b) v := by
  split
  · rfl
  · rw [Nat.sub_eq_zero_of_le (le_of_not_lt (by assumption))]
    rfl

theorem find?_eq_of_first {α : Type} (p : α → Bool) (l : List α) :
    ∀ (i : ℕ) (hi : i < l.length),
      (∀ j (hj : j < l.length), j < i → p (l.get ⟨j, hj⟩) = false) →
      p (l.get ⟨i, hi⟩) = true →
      l.find? p = some (l.get ⟨i, hi⟩) := by
  induction l with
  | nil => intro i hi; simp at hi
  | cons a t ih =>
    intro i hi hbef hat
    cases i with
    | zero =>
      have ha : p a = true := hat
      simp [List.find?_cons, ha]
    | succ i =>
      have ha : p a = false := hbef 0 (by simp) (Nat.succ_pos i)
      simp only [List.find?_cons, ha]
      exact ih i (Nat.lt_of_succ_lt_succ hi)
        (fun j hj hji => hbef (j + 1) (by simpa using Nat.succ_lt_succ hj)
          (Nat.succ_lt_succ hji)) hat

theorem multFrom_eq_of_at {α : Type} [LinearOrder α] [Inhabited α]
    (ckv : List (α × ℕ)) (c_low ci : ℕ) (hci : ci < ckv.length) (hlow : c_low ≤ ci)
    (hbef : ∀ j, j < ckv.length → c_low ≤ j → j < ci → uValue ckv j ≠ uValue ckv ci) :
    multFrom ckv c_low (uValue ckv ci) = uMult ckv ci := by
  have hlen : ci - c_low < (ckv.drop c_low).length := by
    rw [List.length_drop]; omega
  have hget : (ckv.drop c_low).get ⟨ci - c_low, hlen⟩ = ckv.getD ci default := by
    rw [List.get_eq_getElem, List.getElem_drop, List.getD_eq_getElem _ _ hci]
    congr 1
    show c_low + (ci - c_low) = ci
    omega
  have hfind : (ckv.drop c_low).find? (fun p => decide (p.1 = uValue ckv ci))
      = some ((ckv.drop c_low).get ⟨ci - c_low, hlen⟩) := by
    apply find?_eq_of_first
    · intro j hj hji
      have hjlen : c_low + j < ckv.length := by
        rw [List.length_drop] at hj; omega
      have hgj : (ckv.drop c_low).get ⟨j, hj⟩ = ckv.getD (c_low + j) default := by
        rw [List.get_eq_getElem, List.getElem_drop, List.getD_eq_getElem _ _ hjlen]
      rw [hgj]
      exact decide_eq_false (hbef (c_low + j) hjlen (by omega) (by omega))
    · rw [hget]
      exact decide_eq_true rfl
  unfold multFrom
  rw [hfind, hget]
  rfl

theorem multFrom_eq_zero {α : Type} [LinearOrder α] [Inhabited α]
    (ckv : List (α × ℕ)) (c_low : ℕ) (v : α)
    (h : ∀ j, j < ckv.length → c_low ≤ j → uValue ckv j ≠ v) :
    multFrom ckv c_low v = 0 := by
  unfold multFrom
  have hnone : (ckv.drop c_low).find? (fun p => decide (p.1 = v)) = none := by
    rw [List.find?_eq_none]
    intro x hx
    obtain ⟨k, hk, hxk⟩ := List.mem_iff_getElem.mp hx
    have hklen : c_low + k < ckv.length := by
      rw [List.length_drop] at hk; omega
    have hxv : x.1 = uValue ckv (c_low + k) := by
      rw [← hxk, List.getElem_drop]
      unfold uValue
      rw [List.getD_eq_getElem _ _ hklen]
    simp only [decide_eq_true_eq]
    rw [hxv]
    exact h (c_low + k) hklen (by omega)
  rw [hnone]

/-- Loop invariant proof for `diffGo`.  At state `(f_index, c_index)` all
coarse entries in `[c_low, c_index)` carry values already passed by the
fine cursor, and all entries from `c_index` on carry values not below the
current fine value; `hbound` guarantees the coarse cursor never leaves
the vector while the loop runs. -/
theorem diffGo_spec_aux {α : Type} [LinearOrder α] [Inhabited α]
    (ckv fkv : List (α × ℕ)) (c_low f_high : ℕ)
    (hfh : f_high < fkv.length)
    (hfs : fkv.Pairwise (fun p q => p.1 < q.1))
    (hcs : ckv.Pairwise (fun p q => p.1 < q.1))
    (hnested : ∀ j, j < ckv.length → c_low ≤ j → uValue ckv j ≤ uValue fkv f_high →
      ∃ k, k < f_high + 1 ∧ uValue fkv k = uValue ckv j)
    (hbound : ∃ jb, jb < ckv.length ∧ c_low ≤ jb ∧ uValue fkv f_high ≤ uValue ckv jb) :
    ∀ (fuel f_index c_index : ℕ),
      f_index + fuel = f_high + 1 →
      c_low ≤ c_index →
      (f_index ≤ f_high → ∀ j, j < ckv.length → c_low ≤ j → j < c_index →
        uValue ckv j < uValue fkv f_index) →
      (f_index ≤ f_high → ∀ j, j < ckv.length → c_index ≤ j →
        uValue fkv f_index ≤ uValue ckv j) →
      diffGo ckv fkv fuel f_index c_index
        = (List.range' f_index fuel).flatMap
            (fun k => List.replicate (uMult fkv k - multFrom ckv c_low (uValue fkv k))
              (uValue fkv k)) := by
  intro fuel
  induction fuel with
  | zero =>
    intro f_index c_index _ _ _ _
    simp [diffGo]
  | succ fuel ih =>
    intro f_index c_index heq hclow invA invB
    have hfle : f_index ≤ f_high := by omega
    have hfi : f_index < fkv.length := by omega
    have hffh : uValue fkv f_index ≤ uValue fkv f_high := uValue_le_uValue fkv hfs hfle hfh
    obtain ⟨jb, hjb, hjbl, hjbv⟩ := hbound
    have hcin : c_index ≤ jb := by
      by_contra h
      have h1 := invA hfle jb hjb hjbl (by omega)
      exact absurd (lt_of_lt_of_le (lt_of_lt_of_le h1 hffh) hjbv) (lt_irrefl _)
    have hcilen : c_index < ckv.length := lt_of_le_of_lt hcin hjb
    have hstep : ∀ j, j < ckv.length → c_low ≤ j →
        uValue fkv f_index < uValue ckv j → f_index + 1 ≤ f_high →
        uValue fkv (f_index + 1) ≤ uValue ckv j := by
      intro j hj hjl hgt hnext
      rcases le_or_lt (uValue ckv j) (uValue fkv f_high) with hle2 | hgt2
      · obtain ⟨k, hk, hkv⟩ := hnested j hj hjl hle2
        have hkgt : f_index < k := by
          by_contra hkle
          have hm := uValue_le_uValue fkv hfs (le_of_not_lt hkle) hfi
          rw [hkv] at hm
          exact absurd hgt (not_lt.mpr hm)
        have hm := uValue_le_uValue fkv hfs (show f_index + 1 ≤ k by omega) (by omega)
        exact le_of_le_of_eq hm hkv
      · exact le_trans (uValue_le_uValue fkv hfs hnext hfh) (le_of_lt hgt2)
    show (if uValue fkv f_index = uValue ckv c_index then
        (if uMult ckv c_index < uMult fkv f_index then
          List.replicate (uMult fkv f_index - uMult ckv c_index) (uValue fkv f_index)
         else [])
          ++ diffGo ckv fkv fuel (f_index + 1) (c_index + 1)
      else
        List.replicate (uMult fkv f_index) (uValue fkv f_index)
          ++ diffGo ckv fkv fuel (f_index + 1) c_index) = _
    rw [List.range'_succ, List.flatMap_cons]
    by_cases hm : uValue fkv f_index = uValue ckv c_index
    · rw [if_pos hm, replicate_excess]
      have hmf : multFrom ckv c_low (uValue fkv f_index) = uMult ckv c_index := by
        rw [hm]
        apply multFrom_eq_of_at ckv c_low c_index hcilen hclow
        intro j hj hjl hji
        have := invA hfle j hj hjl hji
        rw [hm] at this
        exact ne_of_lt this
      congr 1
      · rw [hmf]
      · apply ih (f_index + 1) (c_index + 1) (by omega) (by omega)
        · intro hnext j hj hjl hji
          have hnlen : f_index + 1 < fkv.length := by omega
          rcases Nat.lt_succ_iff_lt_or_eq.mp hji with hji2 | hji2
          · exact lt_trans (invA hfle j hj hjl hji2)
              (uValue_lt_uValue fkv hfs (Nat.lt_succ_self _) hnlen)
          · rw [hji2, ← hm]
            exact uValue_lt_uValue fkv hfs (Nat.lt_succ_self _) hnlen
        · intro hnext j hj hjge
          have h1 : uValue ckv c_index < uValue ckv j :=
            uValue_lt_uValue ckv hcs (by omega) hj
          rw [← hm] at h1
          exact hstep j hj (by omega) h1 hnext
    · rw [if_neg hm]
      have hlt : uValue fkv f_index < uValue ckv c_index :=
        lt_of_le_of_ne (invB hfle c_index hcilen le_rfl) hm
      have hmf : multFrom ckv c_low (uValue fkv f_index) = 0 := by
        apply multFrom_eq_zero
        intro j hj hjl
        rcases lt_or_le j c_index with hji | hji
        · exact ne_of_lt (invA hfle j hj hjl hji)
        · have h1 : uValue ckv c_index ≤ uValue ckv j := uValue_le_uValue ckv hcs hji hj
          exact ne_of_gt (lt_of_lt_of_le hlt h1)
      congr 1
      · rw [hmf, Nat.sub_zero]
      · apply ih (f_index + 1) c_index (by omega) hclow
        · intro hnext j hj hjl hji
          have hnlen : f_index + 1 < fkv.length := by omega
          exact lt_trans (invA hfle j hj hjl hji)
            (uValue_lt_uValue fkv hfs (Nat.lt_succ_self _) hnlen)
        · intro hnext j hj hjge
          have h1 : uValue ckv c_index ≤ uValue ckv j := uValue_le_uValue ckv hcs hjge hj
          exact hstep j hj (le_trans hclow hjge) (lt_of_lt_of_le hlt h1) hnext

theorem sorted_flatMap_replicate {α : Type} [LinearOrder α] (v : ℕ → α) (m : ℕ → ℕ) :
    ∀ (n s : ℕ), (∀ a b, s ≤ a → a < b → b < s + n → v a ≤ v b) →
      List.Sorted (fun x y => x ≤ y)
        ((List.range' s n).flatMap (fun k => List.replicate (m k) (v k))) := by
  intro n
  induction n with
  | zero => intro s _; simp
  | succ n ih =>
    intro s hmono
    rw [List.range'_succ, List.flatMap_cons]
    refine List.pairwise_append.mpr ⟨?_, ?_, ?_⟩
    · exact List.pairwise_replicate.mpr (Or.inr le_rfl)
    · exact ih (s + 1) (fun a b ha hab hb => hmono a b (by omega) hab (by omega))
    · intro x hx y hy
      have hxv : x = v s := List.eq_of_mem_replicate hx
      obtain ⟨k, hk, hyk⟩ := List.mem_flatMap.mp hy
      have hyv : y = v k := List.eq_of_mem_replicate hyk
      have hkr := List.mem_range'_1.mp hk
      rw [hxv, hyv]
      exact hmono s k le_rfl (by omega) (by omega)

/-- Claim C5 (knot-vector difference computation): for nested knot
vectors — inside the inspected range every coarse unique value that does
not exceed the last inspected fine value occurs among the inspected fine
values (`hnested`), and some coarse value at or after `c_low` reaches the
last inspected fine value (`hbound`, which keeps the coarse cursor inside
the vector) — `_differenceBetweenKnotVectors` appends to `knots` exactly
the knot values of the fine vector with unique-value indices in
`[f_low, f_high]`, in nondecreasing order, each repeated as many times as
its multiplicity in the fine vector exceeds its multiplicity in the
coarse vector (and repeated its full fine multiplicity when absent from
the coarse vector). -/
theorem differenceBetweenKnotVectors_spec {α : Type} [LinearOrder α] [Inhabited α]
    (ckv fkv : List (α × ℕ)) (c_low c_high f_low f_high : ℕ) (knots : List α)
    (hfh : f_high < fkv.length)
    (hfs : fkv.Pairwise (fun p q => p.1 < q.1))
    (hcs : ckv.Pairwise (fun p q => p.1 < q.1))
    (hnested : ∀ j, j < ckv.length → c_low ≤ j → uValue ckv j ≤ uValue fkv f_high →
      ∃ k, k < f_high + 1 ∧ f_low ≤ k ∧ uValue fkv k = uValue ckv j)
    (hbound : ∃ jb, jb < ckv.length ∧ c_low ≤ jb ∧ uValue fkv f_high ≤ uValue ckv jb) :
    differenceBetweenKnotVectors ckv c_low c_high fkv f_low f_high knots
      = knots ++ claimedDiff ckv c_low fkv f_low f_high
    ∧ List.Sorted (fun x y => x ≤ y) (claimedDiff ckv c_low fkv f_low f_high) := by
  constructor
  · unfold differenceBetweenKnotVectors claimedDiff
    congr 1
    rcases le_or_lt f_low f_high with hle | hgt
    · apply diffGo_spec_aux ckv fkv c_low f_high hfh hfs hcs
        (fun j hj hjl hv => (hnested j hj hjl hv).imp
          (fun k hk => ⟨hk.1, hk.2.2⟩)) hbound
        (f_high + 1 - f_low) f_low c_low (by omega) le_rfl
      · intro _ j _ hjl hji
        omega
      · intro hguard j hj hjl
        rcases le_or_lt (uValue ckv j) (uValue fkv f_high) with h | h
        · obtain ⟨k, hk1, hk2, hk3⟩ := hnested j hj hjl h
          exact le_of_le_of_eq (uValue_le_uValue fkv hfs hk2 (by omega)) hk3
        · exact le_trans (uValue_le_uValue fkv hfs hguard hfh) (le_of_lt h)
    · rw [show f_high + 1 - f_low = 0 by omega]
      simp [diffGo]
  · unfold claimedDiff
    apply sorted_flatMap_replicate
    intro a b ha hab hb
    exact uValue_le_uValue fkv hfs (le_of_lt hab) (by omega)

/-- Witness for C5: coarse unique knots `0²,10,20²` against fine unique
knots `0³,5,10²,20²` (exponents are multiplicities) over the full
inspected ranges; the loop appends `[0, 5, 10]` to the seed `[99]`. -/
theorem differenceBetweenKnotVectors_spec_witness :
    differenceBetweenKnotVectors [(0, 2), (10, 1), (20, 2)] 0 2
        [(0, 3), (5, 1), (10, 2), (20, 2)] 0 3 [99]
      = [99] ++ claimedDiff [(0, 2), (10, 1), (20, 2)] 0
          [(0, 3), (5, 1), (10, 2), (20, 2)] 0 3
    ∧ List.Sorted (fun x y => x ≤ y)
        (claimedDiff [(0, 2), (10, 1), (20, 2)] 0
          [(0, 3), (5, 1), (10, 2), (20, 2)] 0 3) :=
  differenceBetweenKnotVectors_spec [(0, 2), (10, 1), (20, 2)]
    [(0, 3), (5, 1), (10, 2), (20, 2)] 0 2 0 3 [99]
    (by decide) (by decide) (by decide) (by decide) (by decide)
